import Mathlib

/-!
Verification of the ColabBTR morphology module (colabbtr/morphology.py).

The module works on 2-D float tensors.  We embed tensors shallowly:

* finite real-valued tensors (tips, images, surfaces) become `Grid`:
  a pair of dimensions plus a total value function on integer indices
  (only indices `0 ≤ i < h`, `0 ≤ j < w` are meaningful);
* tensors whose computation introduces IEEE infinities (the running
  max/min accumulators of `idilation`/`ierosion`, masked renderer
  values) take values in `V := WithBot (WithTop Rat)`, the rationals
  extended with bottom (negative infinity) and top (positive infinity);
* `torch.roll` becomes index arithmetic with `Int.emod`;
* the Python `round` builtin (round half to even) becomes `pyround`;
* `torch.sqrt` is an external numeric primitive, modelled as an
  abstract function parameter `s : Rat -> Rat`;
* the external AdamW optimizer step of `differentiable_btr` (declared
  out of scope by the specification) is modelled as an abstract update
  function giving the new in-place entry values of the tip tensor.
-/

/-- Extended value line: rationals plus a bottom and a top element,
modelling IEEE float values including the two infinities (NaN never
arises on the executed paths). -/
def V : Type := WithBot (WithTop ℚ)

instance : LinearOrder V := inferInstanceAs (LinearOrder (WithBot (WithTop ℚ)))
instance : OrderBot V := inferInstanceAs (OrderBot (WithBot (WithTop ℚ)))
instance : OrderTop V := inferInstanceAs (OrderTop (WithBot (WithTop ℚ)))
instance : OrderedAddCommMonoid V :=
  inferInstanceAs (OrderedAddCommMonoid (WithBot (WithTop ℚ)))
instance : DecidableEq V := inferInstanceAs (DecidableEq (WithBot (WithTop ℚ)))

set_option allowUnsafeReducibility true
attribute [semireducible] Rat.add Rat.mul Rat.sub Rat.inv

/-- Embedding of a finite float value into the extended value line. -/
def qv (q : ℚ) : V := ((q : WithTop ℚ) : WithBot (WithTop ℚ))

lemma qv_le_qv {a b : ℚ} : qv a ≤ qv b ↔ a ≤ b := by
  unfold qv
  rw [WithBot.coe_le_coe, WithTop.coe_le_coe]

lemma qv_inj {a b : ℚ} : qv a = qv b ↔ a = b := by
  unfold qv
  rw [WithBot.coe_eq_coe, WithTop.coe_eq_coe]

lemma qv_add (a b : ℚ) : qv (a + b) = qv a + qv b := by
  unfold qv
  norm_cast

lemma bot_lt_qv (a : ℚ) : (⊥ : V) < qv a := WithBot.bot_lt_coe _

lemma qv_max (a b : ℚ) : max (qv a) (qv b) = qv (max a b) := by
  rcases le_total a b with h | h
  · rw [max_eq_right h, max_eq_right (qv_le_qv.mpr h)]
  · rw [max_eq_left h, max_eq_left (qv_le_qv.mpr h)]

/-- Finite 2-D tensor of rationals, indexed (row, column); dimension 0
has size `h`, dimension 1 has size `w`. -/
structure Grid where
  h : ℕ
  w : ℕ
  val : ℤ → ℤ → ℚ

/-- 2-D tensor over the extended value line. -/
structure VGrid where
  h : ℕ
  w : ℕ
  val : ℤ → ℤ → V

/-- Injection of a finite tensor into extended-valued tensors. -/
def Grid.toV (G : Grid) : VGrid :=
  ⟨G.h, G.w, fun i j => qv (G.val i j)⟩

/-- Tensor equality: equal shapes and equal entries at every in-range cell. -/
def Grid.Eq (A B : Grid) : Prop :=
  A.h = B.h ∧ A.w = B.w ∧ ∀ i < A.h, ∀ j < A.w, A.val i j = B.val i j

/-- Python round: round half to even (the built-in round on exact values). -/
def pyround (q : ℚ) : ℤ :=
  if q - ⌊q⌋ < 1/2 then ⌊q⌋
  else if (1:ℚ)/2 < q - ⌊q⌋ then ⌊q⌋ + 1
  else if ⌊q⌋ % 2 = 0 then ⌊q⌋ else ⌊q⌋ + 1

/-- compute_xc_yc from morphology.py: the center cell of a tip of size
(m, n) is (round((m-1)/2), round((n-1)/2)) with Python rounding. -/
def compute_xc_yc (m n : ℕ) : ℤ × ℤ :=
  (pyround (((m : ℚ) - 1) / 2), pyround (((n : ℚ) - 1) / 2))

/-- Offsets enumerated by the double loop
for px in range(-xc, m - xc): for py in range(-yc, n - yc). -/
def offList (m n : ℕ) (xc yc : ℤ) : List (ℤ × ℤ) :=
  (List.range m).flatMap fun (a : ℕ) =>
    (List.range n).map fun (b : ℕ) => ((a : ℤ) - xc, (b : ℤ) - yc)

lemma mem_offList {m n : ℕ} {xc yc : ℤ} {p : ℤ × ℤ} :
    p ∈ offList m n xc yc ↔
      -xc ≤ p.1 ∧ p.1 < (m : ℤ) - xc ∧ -yc ≤ p.2 ∧ p.2 < (n : ℤ) - yc := by
  unfold offList
  constructor
  · intro hmem
    rw [List.mem_flatMap] at hmem
    obtain ⟨a, ha, hmem2⟩ := hmem
    rw [List.mem_map] at hmem2
    obtain ⟨b, hb, heq⟩ := hmem2
    rw [List.mem_range] at ha
    rw [List.mem_range] at hb
    subst heq
    refine ⟨?_, ?_, ?_, ?_⟩
    · show -xc ≤ (a : ℤ) - xc
      omega
    · show (a : ℤ) - xc < (m : ℤ) - xc
      omega
    · show -yc ≤ (b : ℤ) - yc
      omega
    · show (b : ℤ) - yc < (n : ℤ) - yc
      omega
  · rintro ⟨h1, h2, h3, h4⟩
    rw [List.mem_flatMap]
    refine ⟨(p.1 + xc).toNat, ?_, ?_⟩
    · rw [List.mem_range]
      omega
    · rw [List.mem_map]
      refine ⟨(p.2 + yc).toNat, ?_, ?_⟩
      · rw [List.mem_range]
        omega
      · refine Prod.ext ?_ ?_
        · show ((p.1 + xc).toNat : ℤ) - xc = p.1
          omega
        · show ((p.2 + yc).toNat : ℤ) - yc = p.2
          omega

/-- idilation from morphology.py: grayscale dilation of a surface by a
tip, with circular (torch.roll) boundary handling and a running
elementwise maximum initialized to negative infinity. -/
def idilation (surface : VGrid) (tip : Grid) : VGrid :=
  ⟨surface.h, surface.w, fun i j =>
    (offList tip.h tip.w (compute_xc_yc tip.h tip.w).1 (compute_xc_yc tip.h tip.w).2).foldl
      (fun r p =>
        max r (surface.val ((i + p.1) % (surface.h : ℤ)) ((j + p.2) % (surface.w : ℤ)) +
          qv (tip.val ((compute_xc_yc tip.h tip.w).1 + p.1) ((compute_xc_yc tip.h tip.w).2 + p.2))))
      ⊥⟩

/-- Subtraction of a finite scalar from an extended value, as in
temp - tip[xc + px, yc + py]. -/
def vsubQ (x : V) (q : ℚ) : V := x + qv (-q)

/-- ierosion from morphology.py: grayscale erosion of an image by a
tip, with circular boundary handling and a running elementwise minimum
initialized to positive infinity. -/
def ierosion (image : VGrid) (tip : Grid) : VGrid :=
  ⟨image.h, image.w, fun i j =>
    (offList tip.h tip.w (compute_xc_yc tip.h tip.w).1 (compute_xc_yc tip.h tip.w).2).foldl
      (fun r p =>
        min r (vsubQ (image.val ((i - p.1) % (image.h : ℤ)) ((j - p.2) % (image.w : ℤ)))
          (tip.val ((compute_xc_yc tip.h tip.w).1 + p.1) ((compute_xc_yc tip.h tip.w).2 + p.2))))
      ⊤⟩

section FoldLemmas

variable {α β : Type} [LinearOrder α]

lemma foldl_max_le_iff (l : List β) (f : β → α) (b c : α) :
    l.foldl (fun r x => max r (f x)) b ≤ c ↔ b ≤ c ∧ ∀ x ∈ l, f x ≤ c := by
  induction l generalizing b with
  | nil => simp
  | cons a t ih =>
    simp only [List.foldl_cons, ih, max_le_iff, List.forall_mem_cons, and_assoc]

lemma foldl_max_ge_init (l : List β) (f : β → α) (b : α) :
    b ≤ l.foldl (fun r x => max r (f x)) b :=
  ((foldl_max_le_iff l f b _).mp le_rfl).1

lemma foldl_max_ge_mem (l : List β) (f : β → α) (b : α) {x : β} (hx : x ∈ l) :
    f x ≤ l.foldl (fun r x => max r (f x)) b :=
  ((foldl_max_le_iff l f b _).mp le_rfl).2 x hx

lemma le_foldl_min_iff (l : List β) (f : β → α) (b c : α) :
    c ≤ l.foldl (fun r x => min r (f x)) b ↔ c ≤ b ∧ ∀ x ∈ l, c ≤ f x := by
  induction l generalizing b with
  | nil => simp
  | cons a t ih =>
    simp only [List.foldl_cons, ih, le_min_iff, List.forall_mem_cons, and_assoc]

lemma foldl_min_le_init (l : List β) (f : β → α) (b : α) :
    l.foldl (fun r x => min r (f x)) b ≤ b :=
  ((le_foldl_min_iff l f b _).mp le_rfl).1

lemma foldl_min_le_mem (l : List β) (f : β → α) (b : α) {x : β} (hx : x ∈ l) :
    l.foldl (fun r x => min r (f x)) b ≤ f x :=
  ((le_foldl_min_iff l f b _).mp le_rfl).2 x hx

lemma foldl_max_eq_init_or_mem (l : List β) (f : β → α) (b : α) :
    l.foldl (fun r x => max r (f x)) b = b ∨
      ∃ x ∈ l, l.foldl (fun r x => max r (f x)) b = f x := by
  induction l generalizing b with
  | nil => exact Or.inl rfl
  | cons a t ih =>
    simp only [List.foldl_cons]
    rcases ih (max b (f a)) with h | ⟨x, hx, h⟩
    · rcases max_choice b (f a) with hm | hm
      · exact Or.inl (by rw [h, hm])
      · exact Or.inr ⟨a, List.mem_cons_self a t, by rw [h, hm]⟩
    · exact Or.inr ⟨x, List.mem_cons_of_mem a hx, h⟩

lemma foldl_min_eq_init_or_mem (l : List β) (f : β → α) (b : α) :
    l.foldl (fun r x => min r (f x)) b = b ∨
      ∃ x ∈ l, l.foldl (fun r x => min r (f x)) b = f x := by
  induction l generalizing b with
  | nil => exact Or.inl rfl
  | cons a t ih =>
    simp only [List.foldl_cons]
    rcases ih (min b (f a)) with h | ⟨x, hx, h⟩
    · rcases min_choice b (f a) with hm | hm
      · exact Or.inl (by rw [h, hm])
      · exact Or.inr ⟨a, List.mem_cons_self a t, by rw [h, hm]⟩
    · exact Or.inr ⟨x, List.mem_cons_of_mem a hx, h⟩

end FoldLemmas

lemma emod_shift_cancel (i p H : ℤ) (h0 : 0 ≤ i) (h1 : i < H) :
    ((i + p) % H - p) % H = i := by
  have h2 : ((i + p) % H - p) % H = (i + p - p) % H := by
    rw [Int.sub_emod, Int.emod_emod_of_dvd _ dvd_rfl, ← Int.sub_emod]
  rw [h2, add_sub_cancel_right, Int.emod_eq_of_lt h0 h1]

lemma emod_self_of_range (i H : ℤ) (h0 : 0 ≤ i) (h1 : i < H) : i % H = i :=
  Int.emod_eq_of_lt h0 h1

lemma vmax_bot_left (x : V) : max (⊥ : V) x = x := max_eq_right bot_le

lemma vmin_top_left (x : V) : min (⊤ : V) x = x := min_eq_right le_top

lemma foldl_max_eq_sup {α β : Type} [LinearOrder α] [OrderBot α]
    (l : List β) (s : Finset β) (f : β → α) (hmem : ∀ x, x ∈ l ↔ x ∈ s) :
    l.foldl (fun r x => max r (f x)) ⊥ = s.sup f := by
  apply le_antisymm
  · exact (foldl_max_le_iff l f ⊥ _).mpr ⟨bot_le, fun x hx => Finset.le_sup ((hmem x).mp hx)⟩
  · exact Finset.sup_le fun x hx => foldl_max_ge_mem l f ⊥ ((hmem x).mpr hx)

/-- circularShift from the specification (section 4.1): a wrap-around
shift of a 2-D field, rolled[i][j] = field[(i - dx) mod H][(j - dy) mod W]. -/
def circShift (S : VGrid) (d1 d2 : ℤ) : VGrid :=
  ⟨S.h, S.w, fun i j => S.val ((i - d1) % (S.h : ℤ)) ((j - d2) % (S.w : ℤ))⟩

/-- Modelled from the spec (section 4.2): dilation as the elementwise
maximum, initialized to negative infinity, over all offsets
px in [-xc, tipH - xc), py in [-yc, tipW - yc), of the surface
circularly shifted by (-px, -py) plus tip[xc + px, yc + py]. -/
def dilationSpec (S : VGrid) (T : Grid) : VGrid :=
  ⟨S.h, S.w, fun i j =>
    (Finset.Ico (-(compute_xc_yc T.h T.w).1) ((T.h : ℤ) - (compute_xc_yc T.h T.w).1) ×ˢ
      Finset.Ico (-(compute_xc_yc T.h T.w).2) ((T.w : ℤ) - (compute_xc_yc T.h T.w).2)).sup
      (fun p => (circShift S (-p.1) (-p.2)).val i j +
        qv (T.val ((compute_xc_yc T.h T.w).1 + p.1) ((compute_xc_yc T.h T.w).2 + p.2)))⟩

/-- C2: for every surface S and tip T, idilation returns a field of the
shape of S whose value at each cell is the elementwise maximum,
initialized to negative infinity, over all tip offsets of S circularly
shifted by (-px, -py) plus tip[xc + px, yc + py], with the center
(xc, yc) given by compute_xc_yc (Python rounding of the midpoint). -/
theorem idilation_matches_spec (S : VGrid) (T : Grid) :
    (idilation S T).h = S.h ∧ (idilation S T).w = S.w ∧
    ∀ i j : ℤ, (idilation S T).val i j = (dilationSpec S T).val i j := by
  refine ⟨rfl, rfl, fun i j => ?_⟩
  simp only [idilation, dilationSpec, circShift, sub_neg_eq_add]
  apply foldl_max_eq_sup
  intro p
  rw [mem_offList, Finset.mem_product, Finset.mem_Ico, Finset.mem_Ico]
  tauto

/-- C1: the morphological opening idilation(ierosion(I,T),T) is a
pointwise contraction: it is at most I at every in-range cell, for any
tip with non-positive entries (the proof in fact never needs the sign
condition: on the torus the opening is always dominated by the image). -/
theorem opening_contraction (I T : Grid)
    (hT : ∀ a < T.h, ∀ b < T.w, T.val a b ≤ 0)
    (i j : ℕ) (hi : i < I.h) (hj : j < I.w) :
    (idilation (ierosion I.toV T) T).val i j ≤ qv (I.val i j) := by
  have hi0 : (0 : ℤ) ≤ (i : ℤ) := Int.natCast_nonneg i
  have hj0 : (0 : ℤ) ≤ (j : ℤ) := Int.natCast_nonneg j
  have hih : ((i : ℤ)) < ((I.h : ℤ)) := by exact_mod_cast hi
  have hjw : ((j : ℤ)) < ((I.w : ℤ)) := by exact_mod_cast hj
  simp only [idilation, ierosion, Grid.toV]
  refine (foldl_max_le_iff _ _ _ _).mpr ⟨bot_le, fun p hp => ?_⟩
  have hmin := foldl_min_le_mem
    (offList T.h T.w (compute_xc_yc T.h T.w).1 (compute_xc_yc T.h T.w).2)
    (fun q => vsubQ (qv (I.val ((((i : ℤ) + p.1) % (I.h : ℤ) - q.1) % (I.h : ℤ))
        ((((j : ℤ) + p.2) % (I.w : ℤ) - q.2) % (I.w : ℤ))))
      (T.val ((compute_xc_yc T.h T.w).1 + q.1) ((compute_xc_yc T.h T.w).2 + q.2)))
    ⊤ hp
  beta_reduce at hmin
  rw [emod_shift_cancel (i : ℤ) p.1 (I.h : ℤ) hi0 hih,
      emod_shift_cancel (j : ℤ) p.2 (I.w : ℤ) hj0 hjw] at hmin
  calc _ ≤ vsubQ (qv (I.val i j))
            (T.val ((compute_xc_yc T.h T.w).1 + p.1) ((compute_xc_yc T.h T.w).2 + p.2)) +
          qv (T.val ((compute_xc_yc T.h T.w).1 + p.1) ((compute_xc_yc T.h T.w).2 + p.2)) :=
        add_le_add_right hmin _
    _ = qv (I.val i j) := by
        rw [vsubQ, ← qv_add, ← qv_add, neg_add_cancel_right]

def cw1I : Grid := ⟨1, 1, fun _ _ => 5⟩

def cw1T : Grid := ⟨1, 1, fun _ _ => -1⟩

theorem opening_contraction_witness :
    (∀ a < cw1T.h, ∀ b < cw1T.w, cw1T.val a b ≤ 0) ∧ (0 < cw1I.h) ∧ (0 < cw1I.w) ∧
    (idilation (ierosion cw1I.toV cw1T) cw1T).val 0 0 ≤ qv (cw1I.val 0 0) :=
  ⟨by decide, by decide, by decide,
    opening_contraction cw1I cw1T (by decide) 0 0 (by decide) (by decide)⟩

lemma compute_xc_yc_one_one : compute_xc_yc 1 1 = (0, 0) := by decide

lemma offList_one_one : offList 1 1 0 0 = [(0, 0)] := by decide

lemma idilation_one_one (G : VGrid) (t : Grid) (h1 : t.h = 1) (h2 : t.w = 1)
    (i j : ℕ) (hi : i < G.h) (hj : j < G.w) :
    (idilation G t).val i j = G.val i j + qv (t.val 0 0) := by
  have hih : ((i : ℤ)) < ((G.h : ℤ)) := by exact_mod_cast hi
  have hjw : ((j : ℤ)) < ((G.w : ℤ)) := by exact_mod_cast hj
  simp only [idilation, h1, h2, compute_xc_yc_one_one, offList_one_one,
    List.foldl_cons, List.foldl_nil, vmax_bot_left, add_zero,
    emod_self_of_range (i : ℤ) (G.h : ℤ) (Int.natCast_nonneg i) hih,
    emod_self_of_range (j : ℤ) (G.w : ℤ) (Int.natCast_nonneg j) hjw]

lemma ierosion_one_one (G : VGrid) (t : Grid) (h1 : t.h = 1) (h2 : t.w = 1)
    (i j : ℕ) (hi : i < G.h) (hj : j < G.w) :
    (ierosion G t).val i j = vsubQ (G.val i j) (t.val 0 0) := by
  have hih : ((i : ℤ)) < ((G.h : ℤ)) := by exact_mod_cast hi
  have hjw : ((j : ℤ)) < ((G.w : ℤ)) := by exact_mod_cast hj
  simp only [ierosion, h1, h2, compute_xc_yc_one_one, offList_one_one,
    List.foldl_cons, List.foldl_nil, vmin_top_left, sub_zero, add_zero,
    emod_self_of_range (i : ℤ) (G.h : ℤ) (Int.natCast_nonneg i) hih,
    emod_self_of_range (j : ℤ) (G.w : ℤ) (Int.natCast_nonneg j) hjw]

/-- The 1x1 tip whose single cell is zero. -/
def unitTip : Grid := ⟨1, 1, fun _ _ => 0⟩

/-- C5 (amended): for every field F, dilation and erosion by the
degenerate 1x1 zero tip are the identity on every in-range cell (for a
larger all-zero tip this fails, see the counterexample). -/
theorem unit_tip_identity (F : Grid) :
    (idilation F.toV unitTip).h = F.h ∧ (idilation F.toV unitTip).w = F.w ∧
    (ierosion F.toV unitTip).h = F.h ∧ (ierosion F.toV unitTip).w = F.w ∧
    ∀ i < F.h, ∀ j < F.w,
      (idilation F.toV unitTip).val i j = F.toV.val i j ∧
      (ierosion F.toV unitTip).val i j = F.toV.val i j := by
  refine ⟨rfl, rfl, rfl, rfl, fun i hi j hj => ⟨?_, ?_⟩⟩
  · rw [idilation_one_one F.toV unitTip rfl rfl i j hi hj]
    show qv (F.val i j) + qv (unitTip.val 0 0) = qv (F.val i j)
    rw [show unitTip.val 0 0 = 0 from rfl, ← qv_add, add_zero]
  · rw [ierosion_one_one F.toV unitTip rfl rfl i j hi hj]
    show vsubQ (qv (F.val i j)) (unitTip.val 0 0) = qv (F.val i j)
    rw [show unitTip.val 0 0 = 0 from rfl, vsubQ, ← qv_add]
    norm_num

def cz5F : Grid := ⟨1, 2, fun _ j => if j = 1 then 5 else 0⟩

def cz5T : Grid := ⟨1, 2, fun _ _ => 0⟩

/-- C5 counterexample: for the 1x2 all-zero tip, dilation is not the
identity: on the field [[0, 5]] the cell (0,0) becomes 5. -/
theorem all_zero_tip_not_identity :
    (idilation cz5F.toV cz5T).val 0 0 ≠ cz5F.toV.val 0 0 := by decide

theorem unit_tip_identity_witness :
    (0 < cz5F.h) ∧ (0 < cz5F.w) ∧
    (idilation cz5F.toV unitTip).val 0 0 = cz5F.toV.val 0 0 ∧
    (ierosion cz5F.toV unitTip).val 0 0 = cz5F.toV.val 0 0 :=
  ⟨by decide, by decide,
    ((unit_tip_identity cz5F).2.2.2.2 0 (by decide) 0 (by decide)).1,
    ((unit_tip_identity cz5F).2.2.2.2 0 (by decide) 0 (by decide)).2⟩

/-- C6 (amended): the morphology operations perform no shape
validation: even when the tip is strictly larger than the image in both
dimensions, idilation computes a definite finite wrap-around value at
every in-range cell instead of failing. -/
theorem idilation_no_shape_check (S T : Grid) (hth : 1 ≤ T.h) (htw : 1 ≤ T.w)
    (i j : ℕ) (hi : i < S.h) (hj : j < S.w) :
    ∃ q : ℚ, (idilation S.toV T).val i j = qv q := by
  simp only [idilation, Grid.toV]
  have hmem0 : ((-(compute_xc_yc T.h T.w).1, -(compute_xc_yc T.h T.w).2) : ℤ × ℤ) ∈
      offList T.h T.w (compute_xc_yc T.h T.w).1 (compute_xc_yc T.h T.w).2 := by
    rw [mem_offList]
    refine ⟨le_refl _, by omega, le_refl _, by omega⟩
  rcases foldl_max_eq_init_or_mem
      (offList T.h T.w (compute_xc_yc T.h T.w).1 (compute_xc_yc T.h T.w).2)
      (fun p => qv (S.val (((i : ℤ) + p.1) % (S.h : ℤ)) (((j : ℤ) + p.2) % (S.w : ℤ))) +
        qv (T.val ((compute_xc_yc T.h T.w).1 + p.1) ((compute_xc_yc T.h T.w).2 + p.2)))
      ⊥ with hfold | ⟨p, hp, hfold⟩
  · exfalso
    have hge := foldl_max_ge_mem
      (offList T.h T.w (compute_xc_yc T.h T.w).1 (compute_xc_yc T.h T.w).2)
      (fun p => qv (S.val (((i : ℤ) + p.1) % (S.h : ℤ)) (((j : ℤ) + p.2) % (S.w : ℤ))) +
        qv (T.val ((compute_xc_yc T.h T.w).1 + p.1) ((compute_xc_yc T.h T.w).2 + p.2)))
      ⊥ hmem0
    rw [hfold] at hge
    beta_reduce at hge
    rw [← qv_add] at hge
    exact absurd hge (bot_lt_qv _).not_le
  · rw [← qv_add] at hfold
    exact ⟨_, hfold⟩

def cz6I : Grid := ⟨1, 1, fun _ _ => 5⟩

def cz6T : Grid := ⟨3, 3, fun _ _ => 0⟩

/-- C6 counterexample: with a 3x3 tip and a 1x1 image (tip larger than
the image in both dimensions) idilation raises no error and computes a
result: the single cell evaluates to 5 by circular wrap-around, so no
fail-fast shape check exists before the computation. -/
theorem idilation_oversized_tip_computes :
    (idilation cz6I.toV cz6T).val 0 0 = qv 5 := by decide

theorem idilation_no_shape_check_witness :
    (1 ≤ cz6T.h) ∧ (1 ≤ cz6T.w) ∧ (0 < cz6I.h) ∧ (0 < cz6I.w) ∧
    ∃ q : ℚ, (idilation cz6I.toV cz6T).val 0 0 = qv q :=
  ⟨by decide, by decide, by decide, by decide,
    idilation_no_shape_check cz6I cz6T (by decide) (by decide) 0 0 (by decide) (by decide)⟩

/-- All in-range cell indices of an m x n tensor, row-major. -/
def cellIdx (m n : ℕ) : List (ℤ × ℤ) :=
  (List.range m).flatMap fun (a : ℕ) => (List.range n).map fun (b : ℕ) => ((a : ℤ), (b : ℤ))

lemma mem_cellIdx {m n : ℕ} {p : ℤ × ℤ} :
    p ∈ cellIdx m n ↔ 0 ≤ p.1 ∧ p.1 < (m : ℤ) ∧ 0 ≤ p.2 ∧ p.2 < (n : ℤ) := by
  unfold cellIdx
  constructor
  · intro hmem
    rw [List.mem_flatMap] at hmem
    obtain ⟨a, ha, hmem2⟩ := hmem
    rw [List.mem_map] at hmem2
    obtain ⟨b, hb, heq⟩ := hmem2
    rw [List.mem_range] at ha
    rw [List.mem_range] at hb
    subst heq
    refine ⟨?_, ?_, ?_, ?_⟩
    · show (0 : ℤ) ≤ (a : ℤ)
      omega
    · show (a : ℤ) < (m : ℤ)
      omega
    · show (0 : ℤ) ≤ (b : ℤ)
      omega
    · show (b : ℤ) < (n : ℤ)
      omega
  · rintro ⟨h1, h2, h3, h4⟩
    rw [List.mem_flatMap]
    refine ⟨p.1.toNat, ?_, ?_⟩
    · rw [List.mem_range]
      omega
    · rw [List.mem_map]
      refine ⟨p.2.toNat, ?_, ?_⟩
      · rw [List.mem_range]
        omega
      · refine Prod.ext ?_ ?_
        · show ((p.1.toNat : ℕ) : ℤ) = p.1
          omega
        · show ((p.2.toNat : ℕ) : ℤ) = p.2
          omega

/-- torch.min(P) over all entries of a (nonempty) tensor. -/
def gridMin (P : Grid) : ℚ :=
  (cellIdx P.h P.w).foldl (fun r c => min r (P.val c.1 c.2)) (P.val 0 0)

lemma gridMin_le_val (P : Grid) {i j : ℤ}
    (h0 : 0 ≤ i) (h1 : i < P.h) (h2 : 0 ≤ j) (h3 : j < P.w) :
    gridMin P ≤ P.val i j :=
  foldl_min_le_mem _ _ _ (x := (i, j)) (mem_cellIdx.mpr ⟨h0, h1, h2, h3⟩)

lemma le_gridMin (P : Grid) (c : ℚ) (hc : c ≤ P.val 0 0)
    (h : ∀ i j : ℤ, 0 ≤ i → i < P.h → 0 ≤ j → j < P.w → c ≤ P.val i j) :
    c ≤ gridMin P := by
  refine (le_foldl_min_iff _ _ _ _).mpr ⟨hc, fun p hp => ?_⟩
  obtain ⟨h0, h1, h2, h3⟩ := mem_cellIdx.mp hp
  exact h p.1 p.2 h0 h1 h2 h3

lemma gridMin_attained (P : Grid) (hh : 1 ≤ P.h) (hw : 1 ≤ P.w) :
    ∃ i j : ℤ, 0 ≤ i ∧ i < P.h ∧ 0 ≤ j ∧ j < P.w ∧ gridMin P = P.val i j := by
  rcases foldl_min_eq_init_or_mem (cellIdx P.h P.w)
      (fun c => P.val c.1 c.2) (P.val 0 0) with h | ⟨p, hp, h⟩
  · exact ⟨0, 0, le_refl _, by exact_mod_cast hh, le_refl _, by exact_mod_cast hw, h⟩
  · obtain ⟨h0, h1, h2, h3⟩ := mem_cellIdx.mp hp
    exact ⟨p.1, p.2, h0, h1, h2, h3, h⟩

/-- The cutoff default argument 10^(-8) of translate_tip_mean. -/
def cutoffQ : ℚ := 1 / 100000000

/-- The degeneracy threshold 10^(-10) of translate_tip_mean. -/
def tinyQ : ℚ := 1 / 10000000000

/-- weight = P - min(P), with entries below the cutoff zeroed. -/
def tipWeightRaw (P : Grid) (i j : ℤ) : ℚ :=
  if P.val i j - gridMin P < cutoffQ then 0 else P.val i j - gridMin P

/-- torch.all(weight < 10**(-10)): the degenerate-tip fallback test. -/
def tipDegenerate (P : Grid) : Bool :=
  (cellIdx P.h P.w).all fun c => decide (tipWeightRaw P c.1 c.2 < tinyQ)

/-- The weight actually used: all ones for a degenerate tip. -/
def tipWeight (P : Grid) (i j : ℤ) : ℚ :=
  if tipDegenerate P then 1 else tipWeightRaw P i j

/-- torch.sum(weight). -/
def weightSum (P : Grid) : ℚ :=
  (cellIdx P.h P.w).foldl (fun r c => r + tipWeight P c.1 c.2) 0

/-- com_x = sum(ix * weight / sum(weight)) with ix the row index field. -/
def comX (P : Grid) : ℚ :=
  (cellIdx P.h P.w).foldl (fun r c => r + (c.1 : ℚ) * tipWeight P c.1 c.2 / weightSum P) 0

/-- com_y = sum(iy * weight / sum(weight)) with iy the column index field. -/
def comY (P : Grid) : ℚ :=
  (cellIdx P.h P.w).foldl (fun r c => r + (c.2 : ℚ) * tipWeight P c.1 c.2 / weightSum P) 0

/-- (id_x, id_y) = (round(com_x), round(com_y)) with Python rounding. -/
def comRound (P : Grid) : ℤ × ℤ := (pyround (comX P), pyround (comY P))

/-- The slice-assignment step of translate_tip_mean: a tensor filled
with pmin, whose window [xc+pxmin, xc+pxmax) x [yc+pymin, yc+pymax)
is copied from the source shifted so that cell d moves to cell c. -/
def translateWindow (m n : ℕ) (c d : ℤ × ℤ) (pmin : ℚ) (f : ℤ → ℤ → ℚ) : Grid :=
  ⟨m, n, fun i j =>
    if c.1 + max (-c.1) (-d.1) ≤ i ∧ i < c.1 + min ((m : ℤ) - c.1) ((m : ℤ) - d.1) ∧
       c.2 + max (-c.2) (-d.2) ≤ j ∧ j < c.2 + min ((n : ℤ) - c.2) ((n : ℤ) - d.2)
    then f (i - c.1 + d.1) (j - c.2 + d.2) else pmin⟩

/-- translate_tip_mean from morphology.py: recenter the tip so that the
rounded intensity-weighted center of mass (id_x, id_y) moves to the
canonical center (xc, yc), clamping the copied window to the tensor
bounds and filling uncovered cells with min(P). -/
def translate_tip_mean (P : Grid) : Grid :=
  translateWindow P.h P.w (compute_xc_yc P.h P.w) (comRound P) (gridMin P) P.val

lemma translateWindow_self (m n : ℕ) (c : ℤ × ℤ) (pmin : ℚ) (f : ℤ → ℤ → ℚ)
    (i j : ℤ) (h0 : 0 ≤ i) (h1 : i < (m : ℤ)) (h2 : 0 ≤ j) (h3 : j < (n : ℤ)) :
    (translateWindow m n c c pmin f).val i j = f i j := by
  show (if _ then f (i - c.1 + c.1) (j - c.2 + c.2) else pmin) = f i j
  rw [if_pos]
  · congr 1 <;> omega
  · omega

/-- Every cell of the recentered tensor is either the fill value pmin
or a value of the source at an in-range cell. -/
lemma translateWindow_cases (m n : ℕ) (c d : ℤ × ℤ) (pmin : ℚ) (f : ℤ → ℤ → ℚ)
    (i j : ℤ) :
    (translateWindow m n c d pmin f).val i j = pmin ∨
      ∃ a b : ℤ, 0 ≤ a ∧ a < (m : ℤ) ∧ 0 ≤ b ∧ b < (n : ℤ) ∧
        (translateWindow m n c d pmin f).val i j = f a b := by
  simp only [translateWindow]
  split_ifs with hcond
  · refine Or.inr ⟨i - c.1 + d.1, j - c.2 + d.2, ?_, ?_, ?_, ?_, rfl⟩ <;> omega
  · exact Or.inl rfl

/-- If the rounded center of mass already sits at the canonical center
cell, translate_tip_mean copies the whole tensor unchanged. -/
lemma translate_tip_mean_of_centered (P : Grid)
    (hc : comRound P = compute_xc_yc P.h P.w) :
    Grid.Eq (translate_tip_mean P) P := by
  refine ⟨rfl, rfl, fun i hi j hj => ?_⟩
  show (translateWindow P.h P.w (compute_xc_yc P.h P.w) (comRound P) (gridMin P) P.val).val i j
      = P.val i j
  rw [hc]
  exact translateWindow_self _ _ _ _ _ _ _ (Int.natCast_nonneg i) (by exact_mod_cast hi)
    (Int.natCast_nonneg j) (by exact_mod_cast hj)

lemma foldl_min_congr {α β : Type} [LinearOrder α] (l : List β) (f g : β → α) (b : α)
    (h : ∀ x ∈ l, f x = g x) :
    l.foldl (fun r x => min r (f x)) b = l.foldl (fun r x => min r (g x)) b := by
  induction l generalizing b with
  | nil => rfl
  | cons a t ih =>
    simp only [List.foldl_cons]
    rw [h a (List.mem_cons_self a t)]
    exact ih _ (fun x hx => h x (List.mem_cons_of_mem a hx))

lemma gridMin_congr {A B : Grid} (e : Grid.Eq A B) (hh : 1 ≤ A.h) (hw : 1 ≤ A.w) :
    gridMin A = gridMin B := by
  obtain ⟨eh, ew, ev⟩ := e
  unfold gridMin
  rw [← eh, ← ew]
  have h00 : A.val 0 0 = B.val 0 0 := by
    have := ev 0 hh 0 hw
    exact_mod_cast this
  rw [h00]
  apply foldl_min_congr
  intro p hp
  obtain ⟨h0, h1, h2, h3⟩ := mem_cellIdx.mp hp
  have hv := ev p.1.toNat (by omega) p.2.toNat (by omega)
  rw [Int.toNat_of_nonneg h0, Int.toNat_of_nonneg h2] at hv
  exact hv

lemma translateWindow_fill (m n : ℕ) (c d : ℤ × ℤ) (pmin : ℚ) (f : ℤ → ℤ → ℚ)
    (hm : 1 ≤ m) (hn : 1 ≤ n) (hne : c ≠ d) :
    ∃ i j : ℤ, 0 ≤ i ∧ i < (m : ℤ) ∧ 0 ≤ j ∧ j < (n : ℤ) ∧
      (translateWindow m n c d pmin f).val i j = pmin := by
  simp only [translateWindow]
  have hcomp : c.1 ≠ d.1 ∨ c.2 ≠ d.2 := by
    by_contra hcon
    push_neg at hcon
    exact hne (Prod.ext hcon.1 hcon.2)
  rcases hcomp with h1 | h2
  · rcases lt_or_gt_of_ne h1 with hlt | hgt
    · refine ⟨(m : ℤ) - 1, 0, by omega, by omega, by omega, by omega, ?_⟩
      split_ifs with hcond
      · exfalso
        omega
      · rfl
    · refine ⟨0, 0, by omega, by omega, by omega, by omega, ?_⟩
      split_ifs with hcond
      · exfalso
        omega
      · rfl
  · rcases lt_or_gt_of_ne h2 with hlt | hgt
    · refine ⟨0, (n : ℤ) - 1, by omega, by omega, by omega, by omega, ?_⟩
      split_ifs with hcond
      · exfalso
        omega
      · rfl
    · refine ⟨0, 0, by omega, by omega, by omega, by omega, ?_⟩
      split_ifs with hcond
      · exfalso
        omega
      · rfl

def cz4P : Grid := ⟨7, 1, fun i _ => if i = 0 ∨ i = 1 then 1 else 0⟩

set_option maxRecDepth 100000 in
/-- C4 counterexample: translate_tip_mean is not idempotent.  For the
7x1 tip [1,1,0,0,0,0,0] the center of mass 1/2 rounds (half-to-even)
to 0, so recentering moves the content to rows 3..6; the recentred
tip has center of mass 7/2 which rounds to 4, not to the canonical
center 3, so a second recentering shifts the content again. -/
theorem translate_tip_mean_not_idempotent :
    (translate_tip_mean (translate_tip_mean cz4P)).val 2 0 ≠
      (translate_tip_mean cz4P).val 2 0 := by decide

/-- C4 (amended): translate_tip_mean is a fixed point on its image
exactly when the recentred tip has rounded center of mass equal to
the canonical center cell; in that case a second application copies
the tensor unchanged.  (Unconditional idempotence fails, see the
counterexample.) -/
theorem translate_tip_mean_idempotent_on_centered (P : Grid)
    (hc : comRound (translate_tip_mean P) = compute_xc_yc P.h P.w) :
    Grid.Eq (translate_tip_mean (translate_tip_mean P)) (translate_tip_mean P) :=
  translate_tip_mean_of_centered (translate_tip_mean P) hc

def cz4Q : Grid := ⟨1, 1, fun _ _ => 0⟩

set_option maxRecDepth 100000 in
theorem translate_tip_mean_idempotent_on_centered_witness :
    (comRound (translate_tip_mean cz4Q) = compute_xc_yc cz4Q.h cz4Q.w) ∧
    Grid.Eq (translate_tip_mean (translate_tip_mean cz4Q)) (translate_tip_mean cz4Q) :=
  ⟨by decide, translate_tip_mean_idempotent_on_centered cz4Q (by decide)⟩

/-- C10: translate_tip_mean preserves the shape and the global minimum
of the tip: every output cell is either a copied original value (hence
at least min(P)) or the background fill min(P), and the minimum of the
recentred tip equals the minimum of P. -/
theorem translate_tip_mean_background (P : Grid) (hh : 1 ≤ P.h) (hw : 1 ≤ P.w) :
    (translate_tip_mean P).h = P.h ∧ (translate_tip_mean P).w = P.w ∧
    (∀ i j : ℤ, (translate_tip_mean P).val i j = gridMin P ∨
      ∃ a b : ℤ, 0 ≤ a ∧ a < (P.h : ℤ) ∧ 0 ≤ b ∧ b < (P.w : ℤ) ∧
        (translate_tip_mean P).val i j = P.val a b) ∧
    gridMin (translate_tip_mean P) = gridMin P := by
  refine ⟨rfl, rfl, fun i j => translateWindow_cases P.h P.w _ _ _ _ i j, ?_⟩
  by_cases hcent : comRound P = compute_xc_yc P.h P.w
  · exact gridMin_congr (translate_tip_mean_of_centered P hcent) hh hw
  · have hvals : ∀ i j : ℤ, gridMin P ≤ (translate_tip_mean P).val i j := by
      intro i j
      rcases translateWindow_cases P.h P.w (compute_xc_yc P.h P.w) (comRound P)
          (gridMin P) P.val i j with hcase | ⟨a, b, h0, h1, h2, h3, hcase⟩
      · exact le_of_eq hcase.symm
      · exact le_of_le_of_eq (gridMin_le_val P h0 h1 h2 h3) hcase.symm
    apply le_antisymm
    · obtain ⟨i0, j0, hi0, hi1, hj0, hj1, hfill⟩ :=
        translateWindow_fill P.h P.w (compute_xc_yc P.h P.w) (comRound P)
          (gridMin P) P.val hh hw (fun hcd => hcent hcd.symm)
      calc gridMin (translate_tip_mean P)
          ≤ (translate_tip_mean P).val i0 j0 :=
            gridMin_le_val (translate_tip_mean P) hi0 hi1 hj0 hj1
        _ = gridMin P := hfill
    · exact le_gridMin (translate_tip_mean P) (gridMin P) (hvals 0 0)
        (fun a b _ _ _ _ => hvals a b)

def cz10P : Grid := ⟨2, 1, fun i _ => if i = 0 then 3 else 7⟩

theorem translate_tip_mean_background_witness :
    (1 ≤ cz10P.h) ∧ (1 ≤ cz10P.w) ∧
    gridMin (translate_tip_mean cz10P) = gridMin cz10P :=
  ⟨by decide, by decide,
    (translate_tip_mean_background cz10P (by decide) (by decide)).2.2.2⟩

lemma vmax_bot_right (x : V) : max x (⊥ : V) = x := max_eq_left bot_le

/-- A sphere center (x, y, z) with its radius. -/
structure Atom where
  x : ℚ
  y : ℚ
  z : ℚ
  r : ℚ

/-- The stage sampling configuration consumed by the renderers. -/
structure StageConfig where
  min_x : ℚ
  max_x : ℚ
  resolution_x : ℚ
  min_y : ℚ
  max_y : ℚ
  resolution_y : ℚ

/-- Length of torch.arange(min_x, max_x, resolution_x). -/
def numX (cfg : StageConfig) : ℕ :=
  (Int.ceil ((cfg.max_x - cfg.min_x) / cfg.resolution_x)).toNat

/-- Length of torch.arange(min_y, max_y, resolution_y). -/
def numY (cfg : StageConfig) : ℕ :=
  (Int.ceil ((cfg.max_y - cfg.min_y) / cfg.resolution_y)).toNat

/-- The stage x coordinate of grid column j (cell centers are offset by
half a resolution step). -/
def xstage (cfg : StageConfig) (j : ℤ) : ℚ :=
  cfg.min_x + j * cfg.resolution_x + cfg.resolution_x / 2

/-- The stage y coordinate of grid row index i in ascending y order. -/
def ystage (cfg : StageConfig) (i : ℤ) : ℚ :=
  cfg.min_y + i * cfg.resolution_y + cfg.resolution_y / 2

/-- Squared lateral distance from an atom to the stage point (x, y). -/
def latDist2 (a : Atom) (x y : ℚ) : ℚ := (a.x - x) ^ 2 + (a.y - y) ^ 2

/-- r2 < radius2: the atom's sphere meets the vertical line at (x, y). -/
def hitB (a : Atom) (x y : ℚ) : Bool := decide (latDist2 a x y < a.r ^ 2)

/-- The candidate height z + sqrt(radius^2 - r2) contributed by an
atom, with the square root given by the abstract primitive s. -/
def contrib (s : ℚ → ℚ) (a : Atom) (x y : ℚ) : ℚ :=
  a.z + s (a.r ^ 2 - latDist2 a x y)

/-- surfing from morphology.py (vectorized renderer): per stage grid
point, mask non-intersecting atoms to negative infinity, take the max
over the atom dimension, replace all-masked points by exactly 0, and
flip vertically (row 0 of the result is the largest y).  torch.max
over the atom dimension raises when the atom set is empty, hence the
Option result. -/
def surfing (s : ℚ → ℚ) (atoms : List Atom) (cfg : StageConfig) : Option VGrid :=
  if atoms.isEmpty then none
  else some ⟨numY cfg, numX cfg, fun i j =>
    if atoms.any (fun a => hitB a (xstage cfg j) (ystage cfg ((numY cfg : ℤ) - 1 - i))) then
      atoms.foldl (fun r a =>
        max r (if hitB a (xstage cfg j) (ystage cfg ((numY cfg : ℤ) - 1 - i)) then
          qv (contrib s a (xstage cfg j) (ystage cfg ((numY cfg : ℤ) - 1 - i))) else ⊥)) ⊥
    else qv 0⟩

/-- surfing_old from morphology.py (nested-loop renderer): for each
grid point, if any atom is within lateral radius, write the maximum
candidate height at the vertically flipped row, else leave the cell at
its 0 initialization. -/
def surfing_old (s : ℚ → ℚ) (atoms : List Atom) (cfg : StageConfig) : Grid :=
  ⟨numY cfg, numX cfg, fun i j =>
    match atoms.filter (fun a => hitB a (xstage cfg j) (ystage cfg ((numY cfg : ℤ) - 1 - i))) with
    | [] => 0
    | a :: rest =>
        rest.foldl (fun r b =>
          max r (contrib s b (xstage cfg j) (ystage cfg ((numY cfg : ℤ) - 1 - i))))
          (contrib s a (xstage cfg j) (ystage cfg ((numY cfg : ℤ) - 1 - i)))⟩

lemma foldl_mask_filter {β : Type} (l : List β) (p : β → Bool) (g : β → V) (b : V) :
    l.foldl (fun r a => max r (if p a then g a else ⊥)) b =
      (l.filter p).foldl (fun r a => max r (g a)) b := by
  induction l generalizing b with
  | nil => rfl
  | cons a t ih =>
    cases hpa : p a
    · simp only [List.foldl_cons, List.filter_cons, hpa, Bool.false_eq_true, if_false,
        vmax_bot_right]
      exact ih b
    · simp only [List.foldl_cons, List.filter_cons, hpa, if_true]
      exact ih _

lemma foldl_max_qv {β : Type} (l : List β) (g : β → ℚ) (q : ℚ) :
    l.foldl (fun r a => max r (qv (g a))) (qv q) = qv (l.foldl (fun r a => max r (g a)) q) := by
  induction l generalizing q with
  | nil => rfl
  | cons a t ih =>
    simp only [List.foldl_cons, qv_max]
    exact ih _

lemma any_false_of_filter_nil {β : Type} {l : List β} {p : β → Bool}
    (h : l.filter p = []) : l.any p = false := by
  cases hv : l.any p
  · rfl
  · exfalso
    obtain ⟨x, hx, hpx⟩ := List.any_eq_true.mp hv
    have hmem : x ∈ l.filter p := List.mem_filter.mpr ⟨hx, hpx⟩
    rw [h] at hmem
    exact absurd hmem (List.not_mem_nil x)

lemma any_true_of_filter_cons {β : Type} {l : List β} {p : β → Bool} {a : β} {t : List β}
    (h : l.filter p = a :: t) : l.any p = true := by
  have hmem : a ∈ l.filter p := by
    rw [h]
    exact List.mem_cons_self a t
  obtain ⟨hal, hpa⟩ := List.mem_filter.mp hmem
  exact List.any_eq_true.mpr ⟨a, hal, hpa⟩

/-- Pointwise agreement of the masked vectorized maximum with the
filtered nested-loop maximum, at a fixed stage point. -/
lemma surf_cell_eq (s : ℚ → ℚ) (l : List Atom) (x y : ℚ) :
    (if l.any (fun a => hitB a x y) then
        l.foldl (fun r a => max r (if hitB a x y then qv (contrib s a x y) else ⊥)) ⊥
      else qv 0) =
    qv (match l.filter (fun a => hitB a x y) with
        | [] => 0
        | a :: rest => rest.foldl (fun r b => max r (contrib s b x y)) (contrib s a x y)) := by
  cases hfil : l.filter (fun a => hitB a x y) with
  | nil =>
    rw [any_false_of_filter_nil hfil]
    rfl
  | cons a rest =>
    rw [any_true_of_filter_cons hfil, if_pos rfl]
    rw [foldl_mask_filter l (fun a => hitB a x y) (fun a => qv (contrib s a x y)) ⊥, hfil,
      List.foldl_cons, vmax_bot_left]
    exact foldl_max_qv rest (fun b => contrib s b x y) (contrib s a x y)

/-- C8: on every nonempty atom set the vectorized renderer equals the
nested-loop renderer exactly (in the exact-arithmetic model with a
shared square-root primitive). -/
theorem surfing_agrees_surfing_old (s : ℚ → ℚ) (atoms : List Atom) (cfg : StageConfig)
    (hne : atoms ≠ []) :
    surfing s atoms cfg = some ((surfing_old s atoms cfg).toV) := by
  unfold surfing
  rw [if_neg (by simpa using hne)]
  refine congrArg some ?_
  unfold surfing_old Grid.toV
  congr 1
  funext i j
  exact surf_cell_eq s atoms (xstage cfg j) (ystage cfg ((numY cfg : ℤ) - 1 - i))

def czCfgA : StageConfig := ⟨0, 1, 1, 0, 1, 1⟩

def czCfgB : StageConfig := ⟨0, 2, 1, 0, 2, 1⟩

/-- C8 counterexample: on the empty atom set the vectorized surfing
raises (torch.max over a zero-size dimension; modelled as none) while
surfing_old returns the all-zero field, so the two renderers do not
agree for every atom set. -/
theorem surfing_old_empty_disagreement :
    surfing (fun q => q) [] czCfgB ≠ some ((surfing_old (fun q => q) [] czCfgB).toV) := by
  simp [surfing]

def czAtom : Atom := ⟨0, 0, 0, 1⟩

theorem surfing_agrees_surfing_old_witness :
    ([czAtom] ≠ ([] : List Atom)) ∧
    surfing (fun q => q) [czAtom] czCfgA =
      some ((surfing_old (fun q => q) [czAtom] czCfgA).toV) :=
  ⟨by simp, surfing_agrees_surfing_old (fun q => q) [czAtom] czCfgA (by simp)⟩

/-- Maximum of a list of rationals, none when the list is empty. -/
def maxOfList : List ℚ → Option ℚ
  | [] => none
  | a :: rest => some (rest.foldl max a)

/-- Modelled from the spec (section 4.4 and the claim): at the stage
grid point of column j and row i after the vertical flip (row 0 is the
maximum y), the rendered height is the maximum of z + sqrt(r^2 - d^2)
over the atoms whose lateral distance d satisfies d^2 < r^2, and
exactly 0 when no atom intersects the vertical line. -/
def specSurface (s : ℚ → ℚ) (atoms : List Atom) (cfg : StageConfig) : VGrid :=
  ⟨numY cfg, numX cfg, fun i j =>
    match maxOfList ((atoms.filter
        (fun a => hitB a (xstage cfg j) (ystage cfg ((numY cfg : ℤ) - 1 - i)))).map
        (fun a => contrib s a (xstage cfg j) (ystage cfg ((numY cfg : ℤ) - 1 - i)))) with
    | none => qv 0
    | some m => qv m⟩

/-- C3: for every nonempty atom set, surfing returns the field whose
value at each stage grid point is the maximum sphere-top height over
the atoms within lateral radius, exactly 0 where no atom intersects,
flipped so that row 0 corresponds to the maximum y. -/
theorem surfing_matches_spec (s : ℚ → ℚ) (atoms : List Atom) (cfg : StageConfig)
    (hne : atoms ≠ []) :
    surfing s atoms cfg = some (specSurface s atoms cfg) := by
  unfold surfing
  rw [if_neg (by simpa using hne)]
  refine congrArg some ?_
  unfold specSurface
  congr 1
  funext i j
  rw [surf_cell_eq s atoms (xstage cfg j) (ystage cfg ((numY cfg : ℤ) - 1 - i))]
  cases hfil : atoms.filter
      (fun a => hitB a (xstage cfg j) (ystage cfg ((numY cfg : ℤ) - 1 - i))) with
  | nil => rfl
  | cons a rest =>
    simp only [List.map_cons, maxOfList]
    rw [List.foldl_map]

/-- C3 counterexample: on the empty atom set surfing does not return a
height field at all (torch.max over the zero-size atom dimension
raises; modelled as none), so the claim fails for every atom set. -/
theorem surfing_empty_counterexample :
    surfing (fun q => q) [] czCfgA = none := by
  simp [surfing]

theorem surfing_matches_spec_witness :
    ([czAtom] ≠ ([] : List Atom)) ∧
    surfing (fun q => q) [czAtom] czCfgB = some (specSurface (fun q => q) [czAtom] czCfgB) :=
  ⟨by simp, surfing_matches_spec (fun q => q) [czAtom] czCfgB (by simp)⟩

/-- torch.clamp(tip, max=0.0): elementwise minimum with zero. -/
def clampG (T : Grid) : Grid := ⟨T.h, T.w, fun i j => min (T.val i j) 0⟩

/-- The squared residual (x - q)^2 of one cell of the reconstruction
against the image, on the extended value line (an infinite residual
squares to positive infinity). -/
def sqDiffCell (x : V) (q : ℚ) : V :=
  WithBot.recBotCoe ⊤ (fun y => WithTop.recTopCoe ⊤ (fun a => qv ((a - q) ^ 2)) y) x

/-- Division of an extended value by a cell count, as in torch.mean. -/
def vdivN (x : V) (k : ℕ) : V :=
  WithBot.recBotCoe ⊥ (fun y => WithTop.recTopCoe ⊤ (fun a => qv (a / (k : ℚ))) y) x

/-- Sum of a list of extended values, starting from 0.0. -/
def sumV (l : List V) : V := l.foldl (· + ·) (qv 0)

/-- loss = torch.mean((idilation(ierosion(image, tip), tip) - image)**2). -/
def lossOf (frame : Grid) (tip : Grid) : V :=
  vdivN (sumV ((cellIdx frame.h frame.w).map fun c =>
    sqDiffCell ((idilation (ierosion frame.toV tip) tip).val c.1 c.2) (frame.val c.1 c.2)))
    (frame.h * frame.w)

/-- One epoch of differentiable_btr: for each frame in order, apply the
(abstract, externally supplied) optimizer update to the tip entries,
clamp to non-positive values, recenter with translate_tip_mean, then
accumulate the recomputed reconstruction loss. -/
def btrEpoch (m n : ℕ) (u : ℕ → Grid → ℤ → ℤ → ℚ) (images : List Grid) (tip : Grid) :
    Grid × V :=
  images.enum.foldl
    (fun acc fr =>
      let t := translate_tip_mean (clampG ⟨m, n, u fr.1 acc.1⟩)
      (t, acc.2 + lossOf fr.2 t))
    (tip, qv 0)

/-- differentiable_btr from morphology.py: the tip starts as the
all-zero (m, n) tensor; each epoch runs btrEpoch and appends the
summed per-frame loss to the trace; the final tip and the loss trace
are returned.  The backward pass and the AdamW step are external to
the module and are modelled by the abstract update u giving the new
in-place entry values of the tip tensor. -/
def differentiable_btr (images : List Grid) (m n : ℕ)
    (upd : ℕ → ℕ → Grid → ℤ → ℤ → ℚ) (nepoch : ℕ) : Grid × List V :=
  (List.range nepoch).foldl
    (fun st e =>
      let r := btrEpoch m n (upd e) images st.1
      (r.1, st.2 ++ [r.2]))
    (⟨m, n, fun _ _ => 0⟩, [])

lemma sqDiffCell_qv (a q : ℚ) : sqDiffCell (qv a) q = qv ((a - q) ^ 2) := rfl

lemma opening_one_one (F t : Grid) (h1 : t.h = 1) (h2 : t.w = 1)
    {i j : ℤ} (h0 : 0 ≤ i) (hi : i < (F.h : ℤ)) (h0j : 0 ≤ j) (hj : j < (F.w : ℤ)) :
    (idilation (ierosion F.toV t) t).val i j = qv (F.val i j) := by
  simp only [idilation, ierosion, Grid.toV, h1, h2, compute_xc_yc_one_one, offList_one_one,
    List.foldl_cons, List.foldl_nil, vmax_bot_left, vmin_top_left, add_zero, sub_zero,
    emod_self_of_range i (F.h : ℤ) h0 hi, emod_self_of_range j (F.w : ℤ) h0j hj]
  rw [vsubQ, ← qv_add, ← qv_add, neg_add_cancel_right]

lemma sumV_all_zero (l : List V) (h : ∀ x ∈ l, x = qv 0) : sumV l = qv 0 := by
  unfold sumV
  induction l with
  | nil => rfl
  | cons a t ih =>
    rw [List.foldl_cons, h a (List.mem_cons_self a t), ← qv_add, add_zero]
    exact ih (fun x hx => h x (List.mem_cons_of_mem a hx))

lemma lossOf_zero (F t : Grid) (h1 : t.h = 1) (h2 : t.w = 1) : lossOf F t = qv 0 := by
  unfold lossOf
  have hsum : sumV ((cellIdx F.h F.w).map fun c =>
      sqDiffCell ((idilation (ierosion F.toV t) t).val c.1 c.2) (F.val c.1 c.2)) = qv 0 := by
    apply sumV_all_zero
    intro x hx
    obtain ⟨c, hc, rfl⟩ := List.mem_map.mp hx
    obtain ⟨hc0, hc1, hc2, hc3⟩ := mem_cellIdx.mp hc
    rw [opening_one_one F t h1 h2 hc0 hc1 hc2 hc3, sqDiffCell_qv, sub_self]
    norm_num
  rw [hsum]
  rw [show vdivN (qv 0) (F.h * F.w) = qv ((0 : ℚ) / ((F.h * F.w : ℕ) : ℚ)) from rfl, zero_div]

lemma btr_fold_ones (u : ℕ → Grid → ℤ → ℤ → ℚ) (l : List (ℕ × Grid)) :
    ∀ acc : Grid × V, acc.2 = qv 0 →
      (l.foldl (fun acc fr =>
        let t := translate_tip_mean (clampG ⟨1, 1, u fr.1 acc.1⟩)
        (t, acc.2 + lossOf fr.2 t)) acc).2 = qv 0 := by
  induction l with
  | nil => exact fun acc h => h
  | cons fr rest ih =>
    intro acc h
    rw [List.foldl_cons]
    apply ih
    show acc.2 + lossOf fr.2 (translate_tip_mean (clampG ⟨1, 1, u fr.1 acc.1⟩)) = qv 0
    rw [h, lossOf_zero _ _ rfl rfl, ← qv_add, add_zero]

lemma btrEpoch_ones_loss (u : ℕ → Grid → ℤ → ℤ → ℚ) (images : List Grid) (tip : Grid) :
    (btrEpoch 1 1 u images tip).2 = qv 0 := by
  unfold btrEpoch
  exact btr_fold_ones u images.enum (tip, qv 0) rfl

/-- C9: with tip size (1,1), erosion followed by dilation is the exact
identity on every image, so every entry of the loss trace after the
first epoch (indeed every entry) is zero. -/
theorem loss_trace_zero_unit_tip (images : List Grid)
    (upd : ℕ → ℕ → Grid → ℤ → ℤ → ℚ) (nepoch : ℕ)
    (hf : ∀ F ∈ images, 1 ≤ F.h ∧ 1 ≤ F.w) :
    ∀ x ∈ (differentiable_btr images 1 1 upd nepoch).2.drop 1, x = qv 0 := by
  have hall : ∀ x ∈ (differentiable_btr images 1 1 upd nepoch).2, x = qv 0 := by
    unfold differentiable_btr
    have hstep : ∀ (l : List ℕ) (st : Grid × List V), (∀ x ∈ st.2, x = qv 0) →
        ∀ x ∈ (l.foldl (fun st e =>
          let r := btrEpoch 1 1 (upd e) images st.1
          (r.1, st.2 ++ [r.2])) st).2, x = qv 0 := by
      intro l
      induction l with
      | nil => exact fun st h => h
      | cons e rest ih =>
        intro st h
        rw [List.foldl_cons]
        apply ih
        intro x hx
        rcases List.mem_append.mp hx with hx | hx
        · exact h x hx
        · rw [List.mem_singleton] at hx
          subst hx
          exact btrEpoch_ones_loss (upd e) images st.1
    exact hstep (List.range nepoch) (⟨1, 1, fun _ _ => 0⟩, [])
      (fun x hx => absurd hx (List.not_mem_nil x))
  exact fun x hx => hall x (List.mem_of_mem_drop hx)

def cz9F : Grid := ⟨1, 1, fun _ _ => 2⟩

theorem loss_trace_zero_unit_tip_witness :
    (∀ F ∈ [cz9F], 1 ≤ F.h ∧ 1 ≤ F.w) ∧
    ∀ x ∈ (differentiable_btr [cz9F] 1 1 (fun _ _ _ _ _ => 0) 2).2.drop 1, x = qv 0 :=
  ⟨by decide, loss_trace_zero_unit_tip [cz9F] (fun _ _ _ _ _ => 0) 2 (by decide)⟩

lemma btrEpoch_tip_form (m n : ℕ) (u : ℕ → Grid → ℤ → ℤ → ℚ)
    (images : List Grid) (tip : Grid) :
    (btrEpoch m n u images tip).1 = tip ∨
      ∃ t : Grid, t.h = m ∧ t.w = n ∧
        (btrEpoch m n u images tip).1 = translate_tip_mean (clampG t) := by
  unfold btrEpoch
  have hstep : ∀ (l : List (ℕ × Grid)) (acc : Grid × V),
      (l.foldl (fun acc fr =>
        let t := translate_tip_mean (clampG ⟨m, n, u fr.1 acc.1⟩)
        (t, acc.2 + lossOf fr.2 t)) acc).1 = acc.1 ∨
      ∃ t : Grid, t.h = m ∧ t.w = n ∧
        (l.foldl (fun acc fr =>
          let t := translate_tip_mean (clampG ⟨m, n, u fr.1 acc.1⟩)
          (t, acc.2 + lossOf fr.2 t)) acc).1 = translate_tip_mean (clampG t) := by
    intro l
    induction l with
    | nil => exact fun acc => Or.inl rfl
    | cons fr rest ih =>
      intro acc
      rw [List.foldl_cons]
      rcases ih (let t := translate_tip_mean (clampG ⟨m, n, u fr.1 acc.1⟩)
          (t, acc.2 + lossOf fr.2 t)) with h | ⟨t, h1, h2, h3⟩
      · exact Or.inr ⟨⟨m, n, u fr.1 acc.1⟩, rfl, rfl, h⟩
      · exact Or.inr ⟨t, h1, h2, h3⟩
  exact hstep images.enum (tip, qv 0)

lemma translate_clamp_nonpos (t : Grid) (hh : 1 ≤ t.h) (hw : 1 ≤ t.w) :
    ∀ i j : ℤ, (translate_tip_mean (clampG t)).val i j ≤ 0 := by
  intro i j
  rcases translateWindow_cases (clampG t).h (clampG t).w
      (compute_xc_yc (clampG t).h (clampG t).w) (comRound (clampG t))
      (gridMin (clampG t)) (clampG t).val i j with hc | ⟨a, b, b0, b1, b2, b3, hc⟩
  · calc (translate_tip_mean (clampG t)).val i j = gridMin (clampG t) := hc
      _ ≤ (clampG t).val 0 0 :=
          gridMin_le_val (clampG t) le_rfl (by exact_mod_cast hh) le_rfl (by exact_mod_cast hw)
      _ ≤ 0 := min_le_right _ _
  · calc (translate_tip_mean (clampG t)).val i j = (clampG t).val a b := hc
      _ ≤ 0 := min_le_right _ _

/-- C7 (amended): for every image stack, abstract optimizer behavior
and epoch count, the tip returned by differentiable_btr has every
entry non-positive, and it is either the zero initialization or the
image of some tensor under the projection
translate_tip_mean of clamp; being a fixed point of translate_tip_mean
is NOT guaranteed (see the counterexample). -/
theorem differentiable_btr_tip_nonpos (images : List Grid) (m n : ℕ)
    (upd : ℕ → ℕ → Grid → ℤ → ℤ → ℚ) (nepoch : ℕ) (hm : 1 ≤ m) (hn : 1 ≤ n) :
    (∀ i j : ℤ, (differentiable_btr images m n upd nepoch).1.val i j ≤ 0) ∧
    ((differentiable_btr images m n upd nepoch).1 = (⟨m, n, fun _ _ => 0⟩ : Grid) ∨
      ∃ t : Grid, t.h = m ∧ t.w = n ∧
        (differentiable_btr images m n upd nepoch).1 = translate_tip_mean (clampG t)) := by
  have hform : (differentiable_btr images m n upd nepoch).1 = (⟨m, n, fun _ _ => 0⟩ : Grid) ∨
      ∃ t : Grid, t.h = m ∧ t.w = n ∧
        (differentiable_btr images m n upd nepoch).1 = translate_tip_mean (clampG t) := by
    unfold differentiable_btr
    have hstep : ∀ (l : List ℕ) (st : Grid × List V),
        (st.1 = (⟨m, n, fun _ _ => 0⟩ : Grid) ∨
          ∃ t : Grid, t.h = m ∧ t.w = n ∧ st.1 = translate_tip_mean (clampG t)) →
        ((l.foldl (fun st e =>
          let r := btrEpoch m n (upd e) images st.1
          (r.1, st.2 ++ [r.2])) st).1 = (⟨m, n, fun _ _ => 0⟩ : Grid) ∨
        ∃ t : Grid, t.h = m ∧ t.w = n ∧
          (l.foldl (fun st e =>
            let r := btrEpoch m n (upd e) images st.1
            (r.1, st.2 ++ [r.2])) st).1 = translate_tip_mean (clampG t)) := by
      intro l
      induction l with
      | nil => exact fun st h => h
      | cons e rest ih =>
        intro st h
        rw [List.foldl_cons]
        apply ih
        show (btrEpoch m n (upd e) images st.1).1 = _ ∨ _
        rcases btrEpoch_tip_form m n (upd e) images st.1 with heq | hex
        · rw [heq]
          exact h
        · exact Or.inr hex
    exact hstep (List.range nepoch) (⟨m, n, fun _ _ => 0⟩, []) (Or.inl rfl)
  refine ⟨?_, hform⟩
  intro i j
  rcases hform with heq | ⟨t, h1, h2, heq⟩
  · rw [heq]
  · rw [heq]
    exact translate_clamp_nonpos t (by omega) (by omega) i j

def cz7img : Grid := ⟨1, 1, fun _ _ => 0⟩

def cz7upd : ℕ → ℕ → Grid → ℤ → ℤ → ℚ := fun _ _ _ i _ => if i = 0 ∨ i = 1 then 0 else -1

set_option maxRecDepth 1000000 in
/-- C7 counterexample: one epoch on one 1x1 frame with a 7x1 tip and
an optimizer update producing entries [0,0,-1,-1,-1,-1,-1].  The
returned tip is the recentred clamped tensor, but recentering it again
changes it (its rounded center of mass does not coincide with the
canonical center), so the returned tip is not a fixed point of
translate_tip_mean. -/
theorem differentiable_btr_tip_not_fixed_point :
    (translate_tip_mean (differentiable_btr [cz7img] 7 1 cz7upd 1).1).val 2 0 ≠
      (differentiable_btr [cz7img] 7 1 cz7upd 1).1.val 2 0 := by decide

theorem differentiable_btr_tip_nonpos_witness :
    (1 ≤ 7) ∧ (1 ≤ 1) ∧
    ∀ i j : ℤ, (differentiable_btr [cz7img] 7 1 cz7upd 1).1.val i j ≤ 0 :=
  ⟨by decide, by decide,
    (differentiable_btr_tip_nonpos [cz7img] 7 1 cz7upd 1 (by decide) (by decide)).1⟩
